import Mathlib

/-!
Verification of the scatter-gather list core (`src/Scatter-gather/sg_copy.h`,
`src/Scatter-gather/sg_copy.c`).

The C code is shallowly embedded as follows:
* pointers are natural numbers (`0` plays the role of `NULL` only where the
  code compares a pointer against `NULL`; descriptor chains themselves are
  represented by Lean lists, which captures the acyclic `next`-linked chains
  the code builds);
* `physaddr_t` (`unsigned long`, 64 bits) values are natural numbers, and
  `ptr_to_phys` / `phys_to_ptr` perform the source's XOR with
  `~(PAGE_SIZE-1)` reduced modulo `2^64`;
* the C `int` fields and locals are `Int` (the verified executions keep all
  these quantities far below `2^31`, so two's-complement wrap-around never
  triggers and unbounded integers are a faithful model);
* byte memory is a total function from addresses to byte values, and
  `memcpy` is a block update (the C call never overlaps in the verified
  statements);
* `sg_destroy` frees nodes; its observable behaviour is modelled as the
  sequence of descriptors it releases, plus, for the cycle analysis, a
  pointer-level walk over an explicit heap.
-/

/-- `PAGE_SIZE` from `sg_copy.h`. -/
def PAGE_SIZE : Nat := 32

/-- The modulus of the 64-bit `physaddr_t` / pointer arithmetic. -/
def PTR_MOD : Nat := 2 ^ 64

/-- `ptr_to_phys` from `sg_copy.h`: `(physaddr_t)p ^ ~(PAGE_SIZE-1)`,
where `~(PAGE_SIZE-1)` is the 64-bit value `2^64 - PAGE_SIZE`. -/
def ptr_to_phys (p : Nat) : Nat := (p % PTR_MOD) ^^^ (PTR_MOD - PAGE_SIZE)

/-- `phys_to_ptr` from `sg_copy.h`: the same XOR, an involution. -/
def phys_to_ptr (a : Nat) : Nat := (a % PTR_MOD) ^^^ (PTR_MOD - PAGE_SIZE)

/-- `sg_entry_t` from `sg_copy.h`: a physical address and a byte count.
The `next` pointer is represented by list structure. -/
structure sg_entry where
  paddr : Nat
  count : Int
deriving DecidableEq, Repr

/-- Total logical extent of a chain: the sum of its descriptors' counts. -/
def sg_extent (l : List sg_entry) : Int := (l.map sg_entry.count).sum

/-- The block of `n` consecutive addresses starting at `d`. -/
def addr_block : Nat → Nat → List Nat
  | _, 0 => []
  | d, n + 1 => d :: addr_block (d + 1) n

/-- The (pointer) addresses of the bytes described by one descriptor. -/
def entry_addrs (e : sg_entry) : List Nat :=
  addr_block (phys_to_ptr e.paddr) e.count.toNat

/-- The addresses of the bytes of a chain's logical extent, in logical
order: byte `i` of the extent lives at `(sg_addrs l).get i`. -/
def sg_addrs : List sg_entry → List Nat
  | [] => []
  | e :: rest => entry_addrs e ++ sg_addrs rest

/-- Byte memory, indexed by pointer address. -/
abbrev Mem := Nat → Nat

/-- `memcpy(dst, src, n)`: a simultaneous block update of memory
(the C call requires the regions not to overlap). -/
def memcpy (m : Mem) (dst src n : Nat) : Mem :=
  fun a => if dst ≤ a ∧ a < dst + n then m (src + (a - dst)) else m a

/-- Sequential byte-by-byte stores: write `vs` at the addresses `as`. -/
def write_bytes (m : Mem) : List Nat → List Nat → Mem
  | a :: as, v :: vs => write_bytes (fun x => if x = a then v else m x) as vs
  | _, _ => m

/-- The first `while` loop of `sg_map` (`sg_copy.c:53-56`): advance `count`
while `ptr_to_phys(buf + count) % PAGE_SIZE` is nonzero and `count < length`. -/
def map_first_loop (buf : Nat) (length : Int) (count : Nat) : Nat :=
  if ptr_to_phys (buf + count) % PAGE_SIZE ≠ 0 ∧ (count : Int) < length then
    map_first_loop buf length (count + 1)
  else count
termination_by length.toNat - count
decreasing_by omega

/-- The main `while` loop of `sg_map` (`sg_copy.c:73-91`): emit descriptors
of `min(remaining, PAGE_SIZE)` bytes at `ptr_to_phys(buf + total_count)`. -/
def map_loop (buf : Nat) (remaining total : Int) : List sg_entry :=
  if 0 < remaining then
    let paddr := ptr_to_phys (buf + total.toNat)
    let count := if remaining ≤ (PAGE_SIZE : Int) then remaining else (PAGE_SIZE : Int)
    ⟨paddr, count⟩ :: map_loop buf (remaining - count) (total + count)
  else []
termination_by remaining.toNat
decreasing_by simp only [PAGE_SIZE] at *; split at * <;> omega

/-- `sg_map` (`sg_copy.c:35-94`). A `NULL` buffer is pointer `0`; returning
the empty list models returning `NULL`. -/
def sg_map (buf : Nat) (length : Int) : List sg_entry :=
  if buf = 0 then []
  else if length ≤ 0 then []
  else
    let c0 := map_first_loop buf length 0
    let c1 : Int :=
      if c0 = 0 then (if length ≤ (PAGE_SIZE : Int) then length else (PAGE_SIZE : Int))
      else (c0 : Int)
    ⟨ptr_to_phys buf, c1⟩ :: map_loop buf (length - c1) c1

/-- `sg_destroy` (`sg_copy.c:101-119`) on a chain represented as a list:
the result is the sequence of descriptors the loop frees, in order.  When
the current descriptor has `count <= 0`, or its successor exists and has
`count <= 0`, the loop severs the `next` link (so it frees the current
descriptor and stops). -/
def sg_destroy : List sg_entry → List sg_entry
  | [] => []
  | e :: rest =>
    if e.count ≤ 0 then [e]
    else
      match rest with
      | [] => [e]
      | e2 :: _ => if e2.count ≤ 0 then [e] else e :: sg_destroy rest

/-- The offset-locating loop of `sg_copy` (`sg_copy.c:153-157`): skip whole
descriptors while `bytes_skipped + count <= src_offset`.  Returns the
remaining chain and the final `bytes_skipped`. -/
def skip_loop : List sg_entry → Int → Int → List sg_entry × Int
  | [], skipped, _ => ([], skipped)
  | e :: rest, skipped, off =>
    if skipped + e.count ≤ off then skip_loop rest (skipped + e.count) off
    else (e :: rest, skipped)

/-- The dual-cursor copy loop of `sg_copy` (`sg_copy.c:168-221`).
State: memory, the rest of the source chain with the intra-descriptor
offset `offS`, the rest of the destination chain with offset `offD`,
`remaining_bytes_to_copy` and `bytes_copied`.  Returns the final
`bytes_copied` and memory. -/
def copy_loop (m : Mem) (src dest : List sg_entry) (offS offD rem copied : Int) :
    Int × Mem :=
  match src, dest with
  | s :: srest, d :: drest =>
    if 0 < rem then
      if s.count ≤ 0 then (copied, m)
      else if d.count ≤ 0 then (copied, m)
      else
        let p_src := phys_to_ptr s.paddr + offS.toNat
        let p_dest := phys_to_ptr d.paddr + offD.toNat
        let remS := s.count - offS
        let cpS := if rem ≤ remS then rem else remS
        let remD := d.count - offD
        let cpD := if rem ≤ remD then rem else remD
        if remS < remD then
          copy_loop (memcpy m p_dest p_src cpS.toNat) srest (d :: drest)
            0 (offD + cpS) (rem - cpS) (copied + cpS)
        else if remD < remS then
          copy_loop (memcpy m p_dest p_src cpD.toNat) (s :: srest) drest
            (offS + cpD) 0 (rem - cpD) (copied + cpD)
        else
          copy_loop (memcpy m p_dest p_src cpS.toNat) srest drest
            0 0 (rem - cpS) (copied + cpS)
    else (copied, m)
  | _, _ => (copied, m)
termination_by src.length + dest.length
decreasing_by
  all_goals simp only [List.length_cons]
  all_goals omega

/-- `sg_copy` (`sg_copy.c:137-224`).  A `NULL` list is the empty list.
Returns `bytes_copied` and the final memory. -/
def sg_copy (m : Mem) (src dest : List sg_entry) (src_offset count : Int) :
    Int × Mem :=
  if dest = [] then (0, m)
  else if src_offset < 0 then (0, m)
  else if count ≤ 0 then (0, m)
  else
    match skip_loop src 0 src_offset with
    | ([], _) => (0, m)
    | (s :: rest, skipped) =>
      copy_loop m (s :: rest) dest (src_offset - skipped) 0 count 0

/-- Modelled from the spec (§8, "Mismatched granularity"): the naive flat
copy a scatter-gather copy must agree with.  Overlay bytes `[k, k+n)` of the
flat source byte sequence onto the front of the flat destination byte
sequence, clipped at the end of either sequence. -/
def flat_copy_bytes (srcB destB : List Nat) (k n : Nat) : List Nat :=
  ((srcB.drop k).take n).take destB.length ++
    destB.drop (((srcB.drop k).take n).take destB.length).length

/-- A heap node, for the pointer-level analysis of `sg_destroy`: the
`count` and `next` fields of an `sg_entry_t` at some address (`next = 0`
is `NULL`). -/
structure hnode where
  hcount : Int
  hnext : Nat
deriving DecidableEq, Repr

/-- One iteration of the `sg_destroy` loop (`sg_copy.c:105-118`) at the
pointer level: from the current `sg_list` pointer, compute the pointer the
next iteration starts from.  The severing check replaces `next` by `NULL`
when the current node, or the node it points to, has `count <= 0`.  The
heap is read-only here: this models an execution in which freed memory
still holds its former contents (one possible behaviour of `free`). -/
def destroy_step (H : Nat → hnode) (p : Nat) : Nat :=
  if p = 0 then 0
  else
    let n := H p
    if n.hcount ≤ 0 ∨ (n.hnext ≠ 0 ∧ (H n.hnext).hcount ≤ 0) then 0 else n.hnext

/-- The `sg_list` pointer after `fuel` iterations of the `sg_destroy` loop. -/
def destroy_walk (H : Nat → hnode) : Nat → Nat → Nat
  | 0, p => p
  | fuel + 1, p => destroy_walk H fuel (destroy_step H p)

/-- The `sg_destroy` loop terminates from `p`: some finite number of
iterations drives `sg_list` to `NULL`. -/
def destroy_halts (H : Nat → hnode) (p : Nat) : Prop :=
  ∃ fuel, destroy_walk H fuel p = 0

/-- A `NULL`-terminated pointer chain in a heap: the list of node addresses
visited by following `next` from `p` until `NULL`. -/
inductive hchain (H : Nat → hnode) : Nat → List Nat → Prop
  | nil : hchain H 0 []
  | cons {p : Nat} {l : List Nat} :
      p ≠ 0 → hchain H (H p).hnext l → hchain H p (p :: l)

/-- Concrete byte memory used to instantiate verified statements. -/
def c1mem : Mem := fun a => a % 251

/-- A source chain with descriptor lengths `[5, 20, 7]` (the spec's
mismatched-granularity example), mapping the buffer at address 1000. -/
def c1src : List sg_entry :=
  [⟨ptr_to_phys 1000, 5⟩, ⟨ptr_to_phys 1010, 20⟩, ⟨ptr_to_phys 1040, 7⟩]

/-- A destination chain with descriptor lengths `[10, 10, 12]`, mapping the
buffer at address 2000 (disjoint from `c1src`). -/
def c1dest : List sg_entry :=
  [⟨ptr_to_phys 2000, 10⟩, ⟨ptr_to_phys 2020, 10⟩, ⟨ptr_to_phys 2040, 12⟩]

/-- A heap holding a two-node cycle of valid (positive-count) descriptors:
node 1 points to node 2 and node 2 back to node 1. -/
def cyc_heap : Nat → hnode :=
  fun p => if p = 1 then ⟨1, 2⟩ else if p = 2 then ⟨1, 1⟩ else ⟨1, 0⟩

/-- A heap holding a two-node `NULL`-terminated chain starting at node 1. -/
def line_heap : Nat → hnode :=
  fun p => if p = 1 then ⟨5, 2⟩ else if p = 2 then ⟨3, 0⟩ else ⟨1, 0⟩

/-! ### Basic arithmetic and address-block lemmas -/

lemma xor_mod_two_pow (a b n : Nat) :
    (a ^^^ b) % 2 ^ n = (a % 2 ^ n) ^^^ (b % 2 ^ n) := by
  apply Nat.eq_of_testBit_eq
  intro i
  simp only [Nat.testBit_mod_two_pow, Nat.testBit_xor]
  by_cases h : i < n <;> simp [h]

lemma ptr_to_phys_mod (p : Nat) : ptr_to_phys p % PAGE_SIZE = p % PAGE_SIZE := by
  have h32 : PAGE_SIZE = 2 ^ 5 := rfl
  have hdvd : (2 ^ 5 : Nat) ∣ 2 ^ 64 := pow_dvd_pow 2 (by omega)
  have hm : (PTR_MOD - 2 ^ 5) % 2 ^ 5 = 0 := by decide
  rw [ptr_to_phys, h32, xor_mod_two_pow, hm, Nat.xor_zero, PTR_MOD,
    Nat.mod_mod_of_dvd _ hdvd]

@[simp] lemma addr_block_zero (d : Nat) : addr_block d 0 = [] := rfl

@[simp] lemma addr_block_succ (d n : Nat) :
    addr_block d (n + 1) = d :: addr_block (d + 1) n := rfl

@[simp] lemma length_addr_block : ∀ (n d : Nat), (addr_block d n).length = n
  | 0, _ => rfl
  | n + 1, d => by simp [length_addr_block n (d + 1)]

lemma addr_block_add : ∀ (a : Nat) (d b : Nat),
    addr_block d (a + b) = addr_block d a ++ addr_block (d + a) b
  | 0, d, b => by simp
  | a + 1, d, b => by
    have := addr_block_add a (d + 1) b
    simp only [show a + 1 + b = (a + b) + 1 by omega, addr_block_succ, this]
    simp [Nat.add_assoc, Nat.add_comm 1 a]

lemma take_addr_block : ∀ (n d j : Nat),
    (addr_block d n).take j = addr_block d (min j n)
  | 0, d, j => by simp
  | n + 1, d, 0 => by simp
  | n + 1, d, j + 1 => by
    simp only [addr_block_succ, List.take_succ_cons]
    rw [take_addr_block n (d + 1) j]
    have : min (j + 1) (n + 1) = min j n + 1 := by omega
    rw [this, addr_block_succ]

lemma drop_addr_block : ∀ (n d j : Nat),
    (addr_block d n).drop j = addr_block (d + j) (n - j)
  | 0, d, j => by simp
  | n + 1, d, 0 => by simp
  | n + 1, d, j + 1 => by
    simp only [addr_block_succ, List.drop_succ_cons]
    rw [drop_addr_block n (d + 1) j]
    congr 1 <;> omega

lemma mem_addr_block : ∀ (n d x : Nat), x ∈ addr_block d n ↔ d ≤ x ∧ x < d + n
  | 0, d, x => by simp
  | n + 1, d, x => by
    simp only [addr_block_succ, List.mem_cons, mem_addr_block n (d + 1) x]
    omega

lemma nodup_addr_block : ∀ (n d : Nat), (addr_block d n).Nodup
  | 0, _ => List.nodup_nil
  | n + 1, d => by
    simp only [addr_block_succ, List.nodup_cons]
    refine ⟨?_, nodup_addr_block n (d + 1)⟩
    rw [mem_addr_block]
    omega

lemma get_addr_block : ∀ (n d i : Nat) (h : i < (addr_block d n).length),
    (addr_block d n).get ⟨i, h⟩ = d + i
  | n + 1, d, 0, _ => by simp
  | n + 1, d, i + 1, h => by
    simp only [addr_block_succ, List.get_cons_succ]
    rw [get_addr_block n (d + 1) i]
    omega

/-! ### `write_bytes` and `memcpy` lemmas -/

lemma write_bytes_nil_vals (m : Mem) (as : List Nat) :
    write_bytes m as [] = m := by
  cases as <;> rfl

lemma write_bytes_frame (x : Nat) :
    ∀ (as vs : List Nat) (m : Mem), x ∉ as → write_bytes m as vs x = m x
  | [], vs, m, _ => by cases vs <;> rfl
  | a :: as, [], m, _ => rfl
  | a :: as, v :: vs, m, hx => by
    rw [write_bytes, write_bytes_frame x as vs _ (by simp at hx; tauto)]
    simp at hx
    simp [hx.1]

lemma write_bytes_nodup_get :
    ∀ (as vs : List Nat) (m : Mem) (i : Nat) (hi : i < as.length)
      (hv : i < vs.length), as.Nodup →
      write_bytes m as vs (as.get ⟨i, hi⟩) = vs.get ⟨i, hv⟩
  | a :: as, v :: vs, m, 0, _, _, hnd => by
    simp only [List.get_cons_zero, write_bytes]
    rw [write_bytes_frame _ as vs _ (by simp at hnd; tauto)]
    simp
  | a :: as, v :: vs, m, i + 1, hi, hv, hnd => by
    simp only [List.get_cons_succ, write_bytes]
    exact write_bytes_nodup_get as vs _ i _ _ (List.Nodup.of_cons hnd)

lemma write_bytes_append :
    ∀ (as1 vs1 : List Nat) (as2 vs2 : List Nat) (m : Mem),
      as1.length = vs1.length →
      write_bytes m (as1 ++ as2) (vs1 ++ vs2) =
        write_bytes (write_bytes m as1 vs1) as2 vs2
  | [], [], as2, vs2, m, _ => rfl
  | a :: as1, v :: vs1, as2, vs2, m, h => by
    simp only [List.cons_append, write_bytes]
    exact write_bytes_append as1 vs1 as2 vs2 _ (by simpa using h)
  | [], v :: vs1, _, _, _, h => by simp at h
  | a :: as1, [], _, _, _, h => by simp at h

lemma memcpy_frame (m : Mem) (dst src n x : Nat)
    (h : ¬(dst ≤ x ∧ x < dst + n)) : memcpy m dst src n x = m x := by
  simp [memcpy, h]

lemma memcpy_eq_write_bytes (m : Mem) (dst src n : Nat) :
    memcpy m dst src n =
      write_bytes m (addr_block dst n) ((addr_block src n).map m) := by
  funext x
  by_cases hx : dst ≤ x ∧ x < dst + n
  · have hxm : x ∈ addr_block dst n := (mem_addr_block n dst x).2 hx
    have hi : x - dst < (addr_block dst n).length := by simp; omega
    have hget : (addr_block dst n).get ⟨x - dst, hi⟩ = x := by
      rw [get_addr_block]; omega
    have hv : x - dst < ((addr_block src n).map m).length := by simp; omega
    rw [show x = (addr_block dst n).get ⟨x - dst, hi⟩ from hget.symm]
    rw [write_bytes_nodup_get _ _ _ _ _ hv (nodup_addr_block n dst)]
    have hv2 : x - dst < (addr_block src n).length := by simp; omega
    rw [List.get_map]
    rw [get_addr_block n src (x - dst) hv2, hget]
    simp only [memcpy, if_pos hx]
  · rw [memcpy_frame m dst src n x hx]
    exact (write_bytes_frame x _ _ m (fun hmem => hx ((mem_addr_block n dst x).1 hmem))).symm

/-! ### Extent and address-list lemmas -/

@[simp] lemma sg_extent_nil : sg_extent [] = 0 := rfl

@[simp] lemma sg_extent_cons (e : sg_entry) (l : List sg_entry) :
    sg_extent (e :: l) = e.count + sg_extent l := by
  simp [sg_extent]

lemma sg_extent_append (l₁ l₂ : List sg_entry) :
    sg_extent (l₁ ++ l₂) = sg_extent l₁ + sg_extent l₂ := by
  simp [sg_extent]

lemma sg_extent_nonneg {l : List sg_entry} (h : ∀ e ∈ l, 0 < e.count) :
    0 ≤ sg_extent l := by
  induction l with
  | nil => simp
  | cons e t ih =>
    have he := h e (by simp)
    have := ih (fun x hx => h x (by simp [hx]))
    simp; omega

@[simp] lemma sg_addrs_nil : sg_addrs [] = [] := rfl

@[simp] lemma sg_addrs_cons (e : sg_entry) (l : List sg_entry) :
    sg_addrs (e :: l) = entry_addrs e ++ sg_addrs l := rfl

lemma sg_addrs_append (l₁ l₂ : List sg_entry) :
    sg_addrs (l₁ ++ l₂) = sg_addrs l₁ ++ sg_addrs l₂ := by
  induction l₁ with
  | nil => simp
  | cons e t ih => simp [ih]

lemma length_sg_addrs {l : List sg_entry} (h : ∀ e ∈ l, 0 < e.count) :
    ((sg_addrs l).length : Int) = sg_extent l := by
  induction l with
  | nil => simp
  | cons e t ih =>
    have he := h e (by simp)
    have ht := ih (fun x hx => h x (by simp [hx]))
    simp only [sg_addrs_cons, List.length_append, sg_extent_cons, entry_addrs,
      length_addr_block]
    push_cast
    omega
lemma copy_loop_nil_src (m : Mem) (D : List sg_entry) (a b rem c : Int) :
    copy_loop m [] D a b rem c = (c, m) := by
  rw [copy_loop.eq_def]

lemma copy_loop_nil_dest (m : Mem) (S : List sg_entry) (a b rem c : Int) :
    copy_loop m S [] a b rem c = (c, m) := by
  rw [copy_loop.eq_def]
  cases S <;> simp

lemma copy_loop_rem_le (m : Mem) (S D : List sg_entry) (a b rem c : Int)
    (h : rem ≤ 0) : copy_loop m S D a b rem c = (c, m) := by
  rw [copy_loop.eq_def]
  cases S <;> cases D <;> simp
  omega

lemma copy_loop_src_stop (m : Mem) (s : sg_entry) (S D' : List sg_entry)
    (d : sg_entry) (a b rem c : Int) (hrem : 0 < rem) (hs : s.count ≤ 0) :
    copy_loop m (s :: S) (d :: D') a b rem c = (c, m) := by
  rw [copy_loop.eq_def]
  simp [hrem, hs]

lemma copy_loop_dest_stop (m : Mem) (s : sg_entry) (S D' : List sg_entry)
    (d : sg_entry) (a b rem c : Int) (hrem : 0 < rem) (hs : 0 < s.count)
    (hd : d.count ≤ 0) :
    copy_loop m (s :: S) (d :: D') a b rem c = (c, m) := by
  rw [copy_loop.eq_def]
  simp [hrem, hs, hd]

lemma copy_loop_step_src (m : Mem) (s d : sg_entry) (S D : List sg_entry)
    (a b rem c : Int) (hrem : 0 < rem) (hs : 0 < s.count) (hd : 0 < d.count)
    (hlt : s.count - a < d.count - b) :
    copy_loop m (s :: S) (d :: D) a b rem c =
      copy_loop
        (memcpy m (phys_to_ptr d.paddr + b.toNat) (phys_to_ptr s.paddr + a.toNat)
          (min rem (s.count - a)).toNat)
        S (d :: D) 0 (b + min rem (s.count - a)) (rem - min rem (s.count - a))
        (c + min rem (s.count - a)) := by
  rw [copy_loop.eq_def]
  have h1 : ¬ s.count ≤ 0 := by omega
  have h2 : ¬ d.count ≤ 0 := by omega
  simp only [hrem, if_pos, h1, if_neg, h2, if_false, hlt, if_true, min_def]

lemma copy_loop_step_dest (m : Mem) (s d : sg_entry) (S D : List sg_entry)
    (a b rem c : Int) (hrem : 0 < rem) (hs : 0 < s.count) (hd : 0 < d.count)
    (hlt : d.count - b < s.count - a) :
    copy_loop m (s :: S) (d :: D) a b rem c =
      copy_loop
        (memcpy m (phys_to_ptr d.paddr + b.toNat) (phys_to_ptr s.paddr + a.toNat)
          (min rem (d.count - b)).toNat)
        (s :: S) D (a + min rem (d.count - b)) 0 (rem - min rem (d.count - b))
        (c + min rem (d.count - b)) := by
  rw [copy_loop.eq_def]
  have h1 : ¬ s.count ≤ 0 := by omega
  have h2 : ¬ d.count ≤ 0 := by omega
  have h3 : ¬ s.count - a < d.count - b := by omega
  simp only [hrem, if_pos, h1, if_neg, h2, if_false, h3, hlt, if_true, min_def]

lemma copy_loop_step_both (m : Mem) (s d : sg_entry) (S D : List sg_entry)
    (a b rem c : Int) (hrem : 0 < rem) (hs : 0 < s.count) (hd : 0 < d.count)
    (heq : s.count - a = d.count - b) :
    copy_loop m (s :: S) (d :: D) a b rem c =
      copy_loop
        (memcpy m (phys_to_ptr d.paddr + b.toNat) (phys_to_ptr s.paddr + a.toNat)
          (min rem (s.count - a)).toNat)
        S D 0 0 (rem - min rem (s.count - a)) (c + min rem (s.count - a)) := by
  rw [copy_loop.eq_def]
  have h1 : ¬ s.count ≤ 0 := by omega
  have h2 : ¬ d.count ≤ 0 := by omega
  have h3 : ¬ s.count - a < d.count - b := by omega
  have h4 : ¬ d.count - b < s.count - a := by omega
  simp only [hrem, if_pos, h1, if_neg, h2, if_false, h3, h4, min_def]

lemma le_sg_extent_of_head_bound {D : List sg_entry} {b : Int}
    (hpos : ∀ e ∈ D, 0 < e.count) (hnil : D = [] → b = 0)
    (hhd : ∀ d t, D = d :: t → b < d.count) : b ≤ sg_extent D := by
  cases D with
  | nil => simp [hnil rfl]
  | cons d t =>
    have h1 := hhd d t rfl
    have h2 : 0 ≤ sg_extent t := sg_extent_nonneg (fun e he => hpos e (by simp [he]))
    simp only [sg_extent_cons]
    omega

/-- Value of `bytes_copied` computed by the dual-cursor loop: the minimum of
`remaining`, the bytes left in the source from the current cursor, and the
bytes left in the destination from the current cursor. -/
lemma copy_loop_fst (N : Nat) :
    ∀ (S D : List sg_entry) (m : Mem) (a b rem c : Int),
      S.length + D.length ≤ N →
      (∀ e ∈ S, 0 < e.count) → (∀ e ∈ D, 0 < e.count) →
      0 ≤ a → 0 ≤ b → 0 ≤ rem →
      (S = [] → a = 0) → (∀ s t, S = s :: t → a < s.count) →
      (D = [] → b = 0) → (∀ d t, D = d :: t → b < d.count) →
      (copy_loop m S D a b rem c).1 =
        c + min rem (min (sg_extent S - a) (sg_extent D - b)) := by
  induction N with
  | zero =>
    intro S D m a b rem c hN hSpos hDpos ha hb hrem hSnil hShd hDnil hDhd
    have hS : S = [] := by cases S <;> simp_all
    have hD : D = [] := by cases D <;> simp_all
    subst hS; subst hD
    rw [copy_loop_nil_src]
    simp [hSnil rfl, hDnil rfl]
    omega
  | succ n ih =>
    intro S D m a b rem c hN hSpos hDpos ha hb hrem hSnil hShd hDnil hDhd
    have haext : a ≤ sg_extent S := le_sg_extent_of_head_bound hSpos hSnil hShd
    have hbext : b ≤ sg_extent D := le_sg_extent_of_head_bound hDpos hDnil hDhd
    cases S with
    | nil =>
      rw [copy_loop_nil_src]
      have := hSnil rfl
      simp only [sg_extent_nil, Prod.fst]
      omega
    | cons s S' =>
    cases D with
    | nil =>
      rw [copy_loop_nil_dest]
      have := hDnil rfl
      simp only [sg_extent_nil, Prod.fst]
      omega
    | cons d D' =>
    by_cases hrem0 : rem ≤ 0
    · rw [copy_loop_rem_le _ _ _ _ _ _ _ hrem0]
      simp only [Prod.fst]
      omega
    have hrempos : 0 < rem := by omega
    have hs : 0 < s.count := hSpos s (by simp)
    have hd : 0 < d.count := hDpos d (by simp)
    have hahd : a < s.count := hShd s S' rfl
    have hbhd : b < d.count := hDhd d D' rfl
    have hS'pos : ∀ e ∈ S', 0 < e.count := fun e he => hSpos e (by simp [he])
    have hD'pos : ∀ e ∈ D', 0 < e.count := fun e he => hDpos e (by simp [he])
    have hS'ext : 0 ≤ sg_extent S' := sg_extent_nonneg hS'pos
    have hD'ext : 0 ≤ sg_extent D' := sg_extent_nonneg hD'pos
    have hlen : S'.length + (d :: D').length ≤ n := by
      simp only [List.length_cons] at hN ⊢; omega
    rcases lt_trichotomy (s.count - a) (d.count - b) with hcmp | hcmp | hcmp
    · rw [copy_loop_step_src _ _ _ _ _ _ _ _ _ hrempos hs hd hcmp]
      rw [ih S' (d :: D') _ 0 (b + min rem (s.count - a))
        (rem - min rem (s.count - a)) (c + min rem (s.count - a)) hlen
        hS'pos hDpos (by omega) (by omega) (by omega)
        (fun _ => rfl)
        (fun s2 t h2 => hS'pos s2 (by simp [h2]))
        (fun h2 => by simp at h2)
        (fun d2 t h2 => by injection h2 with h3 h4; subst h3; omega)]
      simp only [sg_extent_cons]
      omega
    · rw [copy_loop_step_both _ _ _ _ _ _ _ _ _ hrempos hs hd hcmp]
      rw [ih S' D' _ 0 0 (rem - min rem (s.count - a)) (c + min rem (s.count - a))
        (by simp only [List.length_cons] at hN ⊢; omega)
        hS'pos hD'pos (by omega) (by omega) (by omega)
        (fun _ => rfl) (fun s2 t h2 => hS'pos s2 (by simp [h2]))
        (fun _ => rfl) (fun d2 t h2 => hD'pos d2 (by simp [h2]))]
      simp only [sg_extent_cons]
      omega
    · rw [copy_loop_step_dest _ _ _ _ _ _ _ _ _ hrempos hs hd hcmp]
      rw [ih (s :: S') D' _ (a + min rem (d.count - b)) 0
        (rem - min rem (d.count - b)) (c + min rem (d.count - b))
        (by simp only [List.length_cons] at hN ⊢; omega)
        hSpos hD'pos (by omega) (by omega) (by omega)
        (fun h2 => by simp at h2)
        (fun s2 t h2 => by injection h2 with h3 h4; subst h3; omega)
        (fun _ => rfl) (fun d2 t h2 => hD'pos d2 (by simp [h2]))]
      simp only [sg_extent_cons]
      omega

/-- Characterization of the offset-locating loop: it splits the chain at the
descriptor containing `off`, accumulating the extent of the skipped prefix,
and stops with strictly less than one descriptor's worth of offset left. -/
lemma skip_loop_spec :
    ∀ (l : List sg_entry) (acc off : Int), acc ≤ off →
      ∃ pre suf, l = pre ++ suf ∧
        skip_loop l acc off = (suf, acc + sg_extent pre) ∧
        acc + sg_extent pre ≤ off ∧
        ∀ s t, suf = s :: t → off - (acc + sg_extent pre) < s.count
  | [], acc, off, hle => by
    refine ⟨[], [], by simp, by simp [skip_loop], by simpa, ?_⟩
    intro s t h
    simp at h
  | e :: rest, acc, off, hle => by
    by_cases h : acc + e.count ≤ off
    · obtain ⟨pre, suf, hsplit, heq, hle2, hhd⟩ := skip_loop_spec rest (acc + e.count) off h
      refine ⟨e :: pre, suf, by simp [hsplit], ?_, ?_, ?_⟩
      · rw [skip_loop, if_pos h, heq]
        simp only [sg_extent_cons]
        congr 1
        omega
      · simp only [sg_extent_cons]; omega
      · intro s t hst
        have := hhd s t hst
        simp only [sg_extent_cons]
        omega
    · refine ⟨[], e :: rest, by simp, ?_, by simpa, ?_⟩
      · rw [skip_loop, if_neg h]
        simp
      · intro s t hst
        injection hst with h1 h2
        subst h1
        simp only [sg_extent_nil]
        omega

/-- The byte count returned by `sg_copy`, for chains satisfying the data
invariant (positive counts), a nonnegative offset and a positive count:
the requested count clipped by the bytes available in the source after the
offset and by the destination's capacity. -/
lemma sg_copy_fst (m : Mem) (src dest : List sg_entry) (k n : Int)
    (hsp : ∀ e ∈ src, 0 < e.count) (hdp : ∀ e ∈ dest, 0 < e.count)
    (hk : 0 ≤ k) (hn : 0 < n) :
    (sg_copy m src dest k n).1 =
      min n (min (max (sg_extent src - k) 0) (sg_extent dest)) := by
  have hdext : 0 ≤ sg_extent dest := sg_extent_nonneg hdp
  by_cases hde : dest = []
  · subst hde
    simp [sg_copy]
    omega
  obtain ⟨pre, suf, hsplit, heq, hle2, hhd⟩ := skip_loop_spec src 0 k hk
  have hsufpos : ∀ e ∈ suf, 0 < e.count := fun e he =>
    hsp e (hsplit ▸ List.mem_append_right pre he)
  have hprenn : 0 ≤ sg_extent pre := sg_extent_nonneg (fun e he =>
    hsp e (hsplit ▸ List.mem_append_left suf he))
  have hext : sg_extent src = sg_extent pre + sg_extent suf := by
    rw [hsplit, sg_extent_append]
  rw [sg_copy, if_neg hde, if_neg (by omega), if_neg (by omega), heq]
  cases suf with
  | nil =>
    simp only [Prod.fst, sg_extent_nil] at *
    omega
  | cons s t =>
    have hhd2 := hhd s t rfl
    have htnn : 0 ≤ sg_extent t := sg_extent_nonneg (fun e he =>
      hsufpos e (by simp [he]))
    have hs : 0 < s.count := hsufpos s (by simp)
    simp only []
    rw [copy_loop_fst ((s :: t).length + dest.length) (s :: t) dest m
      (k - (0 + sg_extent pre)) 0 n 0 le_rfl hsufpos hdp (by omega) le_rfl
      (by omega) (fun h2 => by simp at h2)
      (fun s2 t2 h2 => by injection h2 with h3 h4; subst h3; omega)
      (fun _ => rfl)
      (fun d2 t2 h2 => by
        have := hdp d2 (by simp [h2]); omega)]
    have hsuf : sg_extent (s :: t) = s.count + sg_extent t := by simp
    omega
lemma take_block_append_exact (p cN rN : Nat) (rest : List Nat) :
    (addr_block p cN ++ rest).take (cN + rN) = addr_block p cN ++ rest.take rN := by
  rw [List.take_append_eq_append_take]
  rw [List.take_of_length_le (by simp)]
  congr 2
  simp

lemma drop_block_append (p K j : Nat) (rest : List Nat) (h : j ≤ K) :
    (addr_block p K ++ rest).drop j = addr_block (p + j) (K - j) ++ rest := by
  rw [List.drop_append_eq_append_drop, drop_addr_block]
  have h2 : j - (addr_block p K).length = 0 := by simp; omega
  rw [h2, List.drop_zero]

lemma split_take_move (p K cN rN : Nat) (rest : List Nat) (h : cN ≤ K)
    (hcase : cN = K ∨ rN = 0) :
    (addr_block p K ++ rest).take (cN + rN) = addr_block p cN ++ rest.take rN := by
  rcases hcase with hcase | hcase
  · subst hcase
    exact take_block_append_exact p cN rN rest
  · subst hcase
    rw [List.take_append_eq_append_take, take_addr_block]
    have h1 : min (cN + 0) K = cN := by omega
    have h2 : cN + 0 - (addr_block p K).length = 0 := by simp; omega
    rw [h2, List.take_zero, h1]

lemma split_take_stay (p K cN rN : Nat) (rest : List Nat) (h : cN ≤ K) :
    (addr_block p K ++ rest).take (cN + rN) =
      addr_block p cN ++ (addr_block (p + cN) (K - cN) ++ rest).take rN := by
  have hK : cN + (K - cN) = K := by omega
  rw [show addr_block p K = addr_block p cN ++ addr_block (p + cN) (K - cN) by
    rw [show K = cN + (K - cN) by omega, addr_block_add]
    congr 2
    omega]
  rw [List.append_assoc]
  exact take_block_append_exact p cN rN _
set_option maxHeartbeats 1000000 in
/-- Memory transformation of the dual-cursor loop: writing the first
`R` remaining source bytes (values read in the starting memory) onto the
first `R` remaining destination addresses, where `R` is the copied count. -/
lemma copy_loop_spec (N : Nat) :
    ∀ (S D : List sg_entry) (m : Mem) (a b rem c : Int),
      S.length + D.length ≤ N →
      (∀ e ∈ S, 0 < e.count) → (∀ e ∈ D, 0 < e.count) →
      0 ≤ a → 0 ≤ b → 0 ≤ rem →
      (S = [] → a = 0) → (∀ s t, S = s :: t → a < s.count) →
      (D = [] → b = 0) → (∀ d t, D = d :: t → b < d.count) →
      (∀ x ∈ sg_addrs S, x ∉ sg_addrs D) →
      (copy_loop m S D a b rem c).2 =
        write_bytes m
          (((sg_addrs D).drop b.toNat).take
            (min rem (min (sg_extent S - a) (sg_extent D - b))).toNat)
          ((((sg_addrs S).drop a.toNat).take
            (min rem (min (sg_extent S - a) (sg_extent D - b))).toNat).map m) := by
  induction N with
  | zero =>
    intro S D m a b rem c hN hSpos hDpos ha hb hrem hSnil hShd hDnil hDhd hdisj
    have hS : S = [] := by cases S <;> simp_all
    have hD : D = [] := by cases D <;> simp_all
    subst hS; subst hD
    rw [copy_loop_nil_src]
    simp [hSnil rfl, hDnil rfl, write_bytes]
  | succ n ih =>
    intro S D m a b rem c hN hSpos hDpos ha hb hrem hSnil hShd hDnil hDhd hdisj
    cases S with
    | nil =>
      rw [copy_loop_nil_src]
      have ha0 := hSnil rfl
      have hbd : b ≤ sg_extent D := le_sg_extent_of_head_bound hDpos hDnil hDhd
      have hR : (min rem (min (sg_extent [] - a) (sg_extent D - b))).toNat = 0 := by
        simp only [sg_extent_nil]
        omega
      rw [hR]
      simp [write_bytes]
    | cons s S' =>
    cases D with
    | nil =>
      rw [copy_loop_nil_dest]
      have hb0 := hDnil rfl
      have had : a ≤ sg_extent (s :: S') :=
        le_sg_extent_of_head_bound hSpos hSnil hShd
      have hR : (min rem (min (sg_extent (s :: S') - a) (sg_extent [] - b))).toNat = 0 := by
        simp only [sg_extent_nil]
        omega
      rw [hR]
      simp [write_bytes]
    | cons d D' =>
    have hs : 0 < s.count := hSpos s (by simp)
    have hd : 0 < d.count := hDpos d (by simp)
    have hahd : a < s.count := hShd s S' rfl
    have hbhd : b < d.count := hDhd d D' rfl
    have hS'pos : ∀ e ∈ S', 0 < e.count := fun e he => hSpos e (by simp [he])
    have hD'pos : ∀ e ∈ D', 0 < e.count := fun e he => hDpos e (by simp [he])
    have hS'ext : 0 ≤ sg_extent S' := sg_extent_nonneg hS'pos
    have hD'ext : 0 ≤ sg_extent D' := sg_extent_nonneg hD'pos
    have hextS : sg_extent (s :: S') = s.count + sg_extent S' := by simp
    have hextD : sg_extent (d :: D') = d.count + sg_extent D' := by simp
    by_cases hrem0 : rem ≤ 0
    · rw [copy_loop_rem_le _ _ _ _ _ _ _ hrem0]
      have hR : (min rem (min (sg_extent (s :: S') - a) (sg_extent (d :: D') - b))).toNat = 0 := by
        omega
      rw [hR]
      simp [write_bytes]
    have hrempos : 0 < rem := by omega
    rcases lt_trichotomy (s.count - a) (d.count - b) with hcmp | hcmp | hcmp
    · -- source-side advance
      rw [copy_loop_step_src _ _ _ _ _ _ _ _ _ hrempos hs hd hcmp]
      have hlen : S'.length + (d :: D').length ≤ n := by
        simp only [List.length_cons] at hN ⊢; omega
      have hdisj' : ∀ x ∈ sg_addrs S', x ∉ sg_addrs (d :: D') := fun x hx =>
        hdisj x (by simp only [sg_addrs_cons]; exact List.mem_append_right _ hx)
      rw [ih S' (d :: D') _ 0 (b + min rem (s.count - a))
        (rem - min rem (s.count - a)) (c + min rem (s.count - a)) hlen
        hS'pos hDpos le_rfl (by omega) (by omega)
        (fun _ => rfl) (fun s2 t h2 => hS'pos s2 (by simp [h2]))
        (fun h2 => by simp at h2)
        (fun d2 t h2 => by injection h2 with h3 h4; subst h3; omega)
        hdisj']
      -- abbreviations
      have hchunk_le : min rem (s.count - a) ≤ s.count - a := by omega
      have hm1 : ∀ x ∈ sg_addrs (s :: S'),
          memcpy m (phys_to_ptr d.paddr + b.toNat) (phys_to_ptr s.paddr + a.toNat)
            (min rem (s.count - a)).toNat x = m x := by
        intro x hx
        apply memcpy_frame
        rintro ⟨h1, h2⟩
        refine hdisj x hx ?_
        simp only [sg_addrs_cons]
        refine List.mem_append_left _ ?_
        rw [entry_addrs, mem_addr_block]
        omega
      have hmap_eq :
          (((sg_addrs S').drop (0 : Int).toNat).take
              (min (rem - min rem (s.count - a))
                (min (sg_extent S' - 0)
                  (sg_extent (d :: D') - (b + min rem (s.count - a))))).toNat).map
            (memcpy m (phys_to_ptr d.paddr + b.toNat) (phys_to_ptr s.paddr + a.toNat)
              (min rem (s.count - a)).toNat) =
          (((sg_addrs S').drop (0 : Int).toNat).take
              (min (rem - min rem (s.count - a))
                (min (sg_extent S' - 0)
                  (sg_extent (d :: D') - (b + min rem (s.count - a))))).toNat).map m := by
        apply List.map_congr_left
        intro x hx
        apply hm1
        have hx2 : x ∈ sg_addrs S' := List.take_subset _ _ (by simpa using hx)
        simp only [sg_addrs_cons]
        exact List.mem_append_right _ hx2
      rw [hmap_eq]
      simp only [Int.toNat_zero, List.drop_zero, sub_zero]
      set cnk := min rem (s.count - a) with hcnkdef
      set R2 := min (rem - cnk) (min (sg_extent S') (sg_extent (d :: D') - (b + cnk)))
        with hR2def
      set R := min rem (min (sg_extent (s :: S') - a) (sg_extent (d :: D') - b))
        with hRdef
      have hsplitR : R.toNat = cnk.toNat + R2.toNat := by omega
      have hbcnk : (b + cnk).toNat = b.toNat + cnk.toNat := by omega
      simp only [sg_addrs_cons, entry_addrs]
      rw [hbcnk]
      rw [drop_block_append (phys_to_ptr d.paddr) d.count.toNat
        (b.toNat + cnk.toNat) _ (by omega)]
      rw [drop_block_append (phys_to_ptr d.paddr) d.count.toNat b.toNat _ (by omega)]
      rw [drop_block_append (phys_to_ptr s.paddr) s.count.toNat a.toNat _ (by omega)]
      rw [hsplitR]
      rw [split_take_stay (phys_to_ptr d.paddr + b.toNat) (d.count.toNat - b.toNat)
        cnk.toNat R2.toNat _ (by omega)]
      rw [split_take_move (phys_to_ptr s.paddr + a.toNat) (s.count.toNat - a.toNat)
        cnk.toNat R2.toNat _ (by omega) (by omega)]
      have hblk : addr_block (phys_to_ptr d.paddr + (b.toNat + cnk.toNat))
            (d.count.toNat - (b.toNat + cnk.toNat)) =
          addr_block (phys_to_ptr d.paddr + b.toNat + cnk.toNat)
            (d.count.toNat - b.toNat - cnk.toNat) := by
        congr 1 <;> omega
      rw [hblk]
      rw [memcpy_eq_write_bytes]
      rw [← write_bytes_append _ _ _ _ _ (by simp)]
      rw [List.map_append]
    · -- both sides advance
      rw [copy_loop_step_both _ _ _ _ _ _ _ _ _ hrempos hs hd hcmp]
      have hlen : S'.length + D'.length ≤ n := by
        simp only [List.length_cons] at hN ⊢; omega
      have hdisj' : ∀ x ∈ sg_addrs S', x ∉ sg_addrs D' := fun x hx hxD =>
        hdisj x (by simp only [sg_addrs_cons]; exact List.mem_append_right _ hx)
          (by simp only [sg_addrs_cons]; exact List.mem_append_right _ hxD)
      rw [ih S' D' _ 0 0 (rem - min rem (s.count - a)) (c + min rem (s.count - a))
        hlen hS'pos hD'pos le_rfl le_rfl (by omega)
        (fun _ => rfl) (fun s2 t h2 => hS'pos s2 (by simp [h2]))
        (fun _ => rfl) (fun d2 t h2 => hD'pos d2 (by simp [h2]))
        hdisj']
      have hm1 : ∀ x ∈ sg_addrs (s :: S'),
          memcpy m (phys_to_ptr d.paddr + b.toNat) (phys_to_ptr s.paddr + a.toNat)
            (min rem (s.count - a)).toNat x = m x := by
        intro x hx
        apply memcpy_frame
        rintro ⟨h1, h2⟩
        refine hdisj x hx ?_
        simp only [sg_addrs_cons]
        refine List.mem_append_left _ ?_
        rw [entry_addrs, mem_addr_block]
        omega
      have hmap_eq :
          (((sg_addrs S').drop (0 : Int).toNat).take
              (min (rem - min rem (s.count - a))
                (min (sg_extent S' - 0) (sg_extent D' - 0))).toNat).map
            (memcpy m (phys_to_ptr d.paddr + b.toNat) (phys_to_ptr s.paddr + a.toNat)
              (min rem (s.count - a)).toNat) =
          (((sg_addrs S').drop (0 : Int).toNat).take
              (min (rem - min rem (s.count - a))
                (min (sg_extent S' - 0) (sg_extent D' - 0))).toNat).map m := by
        apply List.map_congr_left
        intro x hx
        apply hm1
        have hx2 : x ∈ sg_addrs S' := List.take_subset _ _ (by simpa using hx)
        simp only [sg_addrs_cons]
        exact List.mem_append_right _ hx2
      rw [hmap_eq]
      simp only [Int.toNat_zero, List.drop_zero, sub_zero]
      set cnk := min rem (s.count - a) with hcnkdef
      set R2 := min (rem - cnk) (min (sg_extent S') (sg_extent D')) with hR2def
      set R := min rem (min (sg_extent (s :: S') - a) (sg_extent (d :: D') - b))
        with hRdef
      have hsplitR : R.toNat = cnk.toNat + R2.toNat := by omega
      simp only [sg_addrs_cons, entry_addrs]
      rw [drop_block_append (phys_to_ptr d.paddr) d.count.toNat b.toNat _ (by omega)]
      rw [drop_block_append (phys_to_ptr s.paddr) s.count.toNat a.toNat _ (by omega)]
      rw [hsplitR]
      rw [split_take_move (phys_to_ptr d.paddr + b.toNat) (d.count.toNat - b.toNat)
        cnk.toNat R2.toNat _ (by omega) (by omega)]
      rw [split_take_move (phys_to_ptr s.paddr + a.toNat) (s.count.toNat - a.toNat)
        cnk.toNat R2.toNat _ (by omega) (by omega)]
      rw [memcpy_eq_write_bytes]
      rw [← write_bytes_append _ _ _ _ _ (by simp)]
      rw [List.map_append]
    · -- destination-side advance
      rw [copy_loop_step_dest _ _ _ _ _ _ _ _ _ hrempos hs hd hcmp]
      have hlen : (s :: S').length + D'.length ≤ n := by
        simp only [List.length_cons] at hN ⊢; omega
      have hdisj' : ∀ x ∈ sg_addrs (s :: S'), x ∉ sg_addrs D' := fun x hx hxD =>
        hdisj x hx (by simp only [sg_addrs_cons]; exact List.mem_append_right _ hxD)
      rw [ih (s :: S') D' _ (a + min rem (d.count - b)) 0
        (rem - min rem (d.count - b)) (c + min rem (d.count - b))
        hlen hSpos hD'pos (by omega) le_rfl (by omega)
        (fun h2 => by simp at h2)
        (fun s2 t h2 => by injection h2 with h3 h4; subst h3; omega)
        (fun _ => rfl) (fun d2 t h2 => hD'pos d2 (by simp [h2]))
        hdisj']
      have hm1 : ∀ x ∈ sg_addrs (s :: S'),
          memcpy m (phys_to_ptr d.paddr + b.toNat) (phys_to_ptr s.paddr + a.toNat)
            (min rem (d.count - b)).toNat x = m x := by
        intro x hx
        apply memcpy_frame
        rintro ⟨h1, h2⟩
        refine hdisj x hx ?_
        simp only [sg_addrs_cons]
        refine List.mem_append_left _ ?_
        rw [entry_addrs, mem_addr_block]
        omega
      have hmap_eq :
          (((sg_addrs (s :: S')).drop (a + min rem (d.count - b)).toNat).take
              (min (rem - min rem (d.count - b))
                (min (sg_extent (s :: S') - (a + min rem (d.count - b)))
                  (sg_extent D' - 0))).toNat).map
            (memcpy m (phys_to_ptr d.paddr + b.toNat) (phys_to_ptr s.paddr + a.toNat)
              (min rem (d.count - b)).toNat) =
          (((sg_addrs (s :: S')).drop (a + min rem (d.count - b)).toNat).take
              (min (rem - min rem (d.count - b))
                (min (sg_extent (s :: S') - (a + min rem (d.count - b)))
                  (sg_extent D' - 0))).toNat).map m := by
        apply List.map_congr_left
        intro x hx
        apply hm1
        exact List.drop_subset _ _ (List.take_subset _ _ hx)
      rw [hmap_eq]
      simp only [Int.toNat_zero, List.drop_zero, sub_zero]
      set cnk := min rem (d.count - b) with hcnkdef
      set R2 := min (rem - cnk) (min (sg_extent (s :: S') - (a + cnk)) (sg_extent D'))
        with hR2def
      set R := min rem (min (sg_extent (s :: S') - a) (sg_extent (d :: D') - b))
        with hRdef
      have hsplitR : R.toNat = cnk.toNat + R2.toNat := by omega
      have hacnk : (a + cnk).toNat = a.toNat + cnk.toNat := by omega
      simp only [sg_addrs_cons, entry_addrs]
      rw [hacnk]
      rw [drop_block_append (phys_to_ptr s.paddr) s.count.toNat
        (a.toNat + cnk.toNat) _ (by omega)]
      rw [drop_block_append (phys_to_ptr d.paddr) d.count.toNat b.toNat _ (by omega)]
      rw [drop_block_append (phys_to_ptr s.paddr) s.count.toNat a.toNat _ (by omega)]
      rw [hsplitR]
      rw [split_take_move (phys_to_ptr d.paddr + b.toNat) (d.count.toNat - b.toNat)
        cnk.toNat R2.toNat _ (by omega) (by omega)]
      rw [split_take_stay (phys_to_ptr s.paddr + a.toNat) (s.count.toNat - a.toNat)
        cnk.toNat R2.toNat _ (by omega)]
      have hblk : addr_block (phys_to_ptr s.paddr + (a.toNat + cnk.toNat))
            (s.count.toNat - (a.toNat + cnk.toNat)) =
          addr_block (phys_to_ptr s.paddr + a.toNat + cnk.toNat)
            (s.count.toNat - a.toNat - cnk.toNat) := by
        congr 1 <;> omega
      rw [hblk]
      rw [memcpy_eq_write_bytes]
      rw [← write_bytes_append _ _ _ _ _ (by simp)]
      rw [List.map_append]
lemma drop_sg_addrs_eq {pre suf : List sg_entry} {k : Int}
    (hpre : ∀ e ∈ pre, 0 < e.count) (hk : sg_extent pre ≤ k) :
    (sg_addrs (pre ++ suf)).drop k.toNat =
      (sg_addrs suf).drop (k - sg_extent pre).toNat := by
  have hlen : ((sg_addrs pre).length : Int) = sg_extent pre := length_sg_addrs hpre
  have hnn : 0 ≤ sg_extent pre := sg_extent_nonneg hpre
  rw [sg_addrs_append, List.drop_append_eq_append_drop]
  have h1 : (sg_addrs pre).drop k.toNat = [] := by
    apply List.drop_eq_nil_of_le
    omega
  have h2 : k.toNat - (sg_addrs pre).length = (k - sg_extent pre).toNat := by
    omega
  rw [h1, h2, List.nil_append]

/-- Memory after `sg_copy`: the first `R` bytes of the source's logical
extent from `src_offset` are stored onto the first `R` addresses of the
destination's logical extent, where `R` is the returned byte count. -/
lemma sg_copy_snd (m : Mem) (src dest : List sg_entry) (k n : Int)
    (hsp : ∀ e ∈ src, 0 < e.count) (hdp : ∀ e ∈ dest, 0 < e.count)
    (hk : 0 ≤ k) (hn : 0 < n)
    (hdisj : ∀ x ∈ sg_addrs src, x ∉ sg_addrs dest) :
    (sg_copy m src dest k n).2 =
      write_bytes m
        ((sg_addrs dest).take
          (min n (min (max (sg_extent src - k) 0) (sg_extent dest))).toNat)
        ((((sg_addrs src).drop k.toNat).take
          (min n (min (max (sg_extent src - k) 0) (sg_extent dest))).toNat).map m) := by
  have hdext : 0 ≤ sg_extent dest := sg_extent_nonneg hdp
  by_cases hde : dest = []
  · subst hde
    have hR : (min n (min (max (sg_extent src - k) 0) (sg_extent []))).toNat = 0 := by
      simp only [sg_extent_nil]
      omega
    rw [hR]
    simp [sg_copy, write_bytes]
  obtain ⟨pre, suf, hsplit, heq, hle2, hhd⟩ := skip_loop_spec src 0 k hk
  have hprepos : ∀ e ∈ pre, 0 < e.count := fun e he =>
    hsp e (hsplit ▸ List.mem_append_left suf he)
  have hsufpos : ∀ e ∈ suf, 0 < e.count := fun e he =>
    hsp e (hsplit ▸ List.mem_append_right pre he)
  have hprenn : 0 ≤ sg_extent pre := sg_extent_nonneg hprepos
  have hext : sg_extent src = sg_extent pre + sg_extent suf := by
    rw [hsplit, sg_extent_append]
  rw [sg_copy, if_neg hde, if_neg (by omega), if_neg (by omega), heq]
  cases suf with
  | nil =>
    have hsufnn : sg_extent src = sg_extent pre := by
      simpa using hext
    have hR : (min n (min (max (sg_extent src - k) 0) (sg_extent dest))).toNat = 0 := by
      omega
    rw [hR]
    simp [write_bytes]
  | cons s t =>
    have hhd2 := hhd s t rfl
    have htnn : 0 ≤ sg_extent t := sg_extent_nonneg (fun e he =>
      hsufpos e (by simp [he]))
    have hsc : 0 < s.count := hsufpos s (by simp)
    have hdisj2 : ∀ x ∈ sg_addrs (s :: t), x ∉ sg_addrs dest := fun x hx =>
      hdisj x (by rw [hsplit, sg_addrs_append]; exact List.mem_append_right _ hx)
    simp only []
    rw [copy_loop_spec ((s :: t).length + dest.length) (s :: t) dest m
      (k - (0 + sg_extent pre)) 0 n 0 le_rfl hsufpos hdp (by omega) le_rfl
      (by omega) (fun h2 => by simp at h2)
      (fun s2 t2 h2 => by injection h2 with h3 h4; subst h3; omega)
      (fun _ => rfl)
      (fun d2 t2 h2 => by have := hdp d2 (by simp [h2]); omega)
      hdisj2]
    have hsufx : sg_extent (s :: t) = s.count + sg_extent t := by simp
    have hdropeq : (sg_addrs src).drop k.toNat =
        (sg_addrs (s :: t)).drop (k - (0 + sg_extent pre)).toNat := by
      rw [hsplit, drop_sg_addrs_eq hprepos (by omega)]
      congr 1
      omega
    have hReq : min n (min (sg_extent (s :: t) - (k - (0 + sg_extent pre)))
          (sg_extent dest - 0)) =
        min n (min (max (sg_extent src - k) 0) (sg_extent dest)) := by
      omega
    rw [hReq, hdropeq]
    simp only [Int.toNat_zero, List.drop_zero]
lemma map_write_bytes_take :
    ∀ (as : List Nat) (r : Nat) (vs : List Nat) (m : Mem), as.Nodup →
      vs.length = (as.take r).length →
      as.map (write_bytes m (as.take r) vs) = vs ++ (as.drop r).map m
  | [], r, vs, m, _, hlen => by
    have : vs = [] := by
      apply List.eq_nil_of_length_eq_zero
      simpa using hlen
    subst this
    simp [write_bytes]
  | a :: as, 0, vs, m, _, hlen => by
    have : vs = [] := by
      apply List.eq_nil_of_length_eq_zero
      simpa using hlen
    subst this
    simp [write_bytes]
  | a :: as, r + 1, vs, m, hnd, hlen => by
    obtain ⟨v, vs', rfl⟩ : ∃ v vs', vs = v :: vs' := by
      cases vs with
      | nil => simp at hlen
      | cons v vs' => exact ⟨v, vs', rfl⟩
    have hna : a ∉ as := (List.nodup_cons.1 hnd).1
    have hnd' : as.Nodup := (List.nodup_cons.1 hnd).2
    simp only [List.take_succ_cons, write_bytes, List.map_cons]
    have hfa : write_bytes (fun x => if x = a then v else m x) (as.take r) vs' a = v := by
      rw [write_bytes_frame a _ _ _ (fun hmem => hna (List.take_subset _ _ hmem))]
      simp
    rw [hfa]
    rw [map_write_bytes_take as r vs' _ hnd' (by simpa using hlen)]
    have hmap2 : (as.drop r).map (fun x => if x = a then v else m x) =
        (as.drop r).map m := by
      apply List.map_congr_left
      intro x hx
      have : x ≠ a := fun h => hna (h ▸ List.drop_subset _ _ hx)
      simp [this]
    rw [hmap2]
    simp

lemma copy_loop_frame (N : Nat) :
    ∀ (S D : List sg_entry) (m : Mem) (a b rem c : Int) (x : Nat),
      S.length + D.length ≤ N →
      0 ≤ a → 0 ≤ b →
      (∀ s t, S = s :: t → a = 0 ∨ a < s.count) →
      (∀ d t, D = d :: t → b = 0 ∨ b < d.count) →
      (∀ e ∈ D, ¬ (phys_to_ptr e.paddr ≤ x ∧
        x < phys_to_ptr e.paddr + e.count.toNat)) →
      (copy_loop m S D a b rem c).2 x = m x := by
  induction N with
  | zero =>
    intro S D m a b rem c x hN _ _ _ _ _
    have hS : S = [] := by cases S <;> simp_all
    subst hS
    rw [copy_loop_nil_src]
  | succ n ih =>
    intro S D m a b rem c x hN ha hb hShd hDhd hout
    cases S with
    | nil => rw [copy_loop_nil_src]
    | cons s S' =>
    cases D with
    | nil => rw [copy_loop_nil_dest]
    | cons d D' =>
    by_cases hrem0 : rem ≤ 0
    · rw [copy_loop_rem_le _ _ _ _ _ _ _ hrem0]
    have hrempos : 0 < rem := by omega
    by_cases hs : s.count ≤ 0
    · rw [copy_loop_src_stop _ _ _ _ _ _ _ _ _ hrempos hs]
    by_cases hd : d.count ≤ 0
    · rw [copy_loop_dest_stop _ _ _ _ _ _ _ _ _ hrempos (by omega) hd]
    have hs' : 0 < s.count := by omega
    have hd' : 0 < d.count := by omega
    have has : a < s.count := by rcases hShd s S' rfl with h | h <;> omega
    have hbd : b < d.count := by rcases hDhd d D' rfl with h | h <;> omega
    have houtd := hout d (by simp)
    have hlen1 : S'.length + (d :: D').length ≤ n := by
      simp only [List.length_cons] at hN ⊢; omega
    have hlen2 : (s :: S').length + D'.length ≤ n := by
      simp only [List.length_cons] at hN ⊢; omega
    have hlen3 : S'.length + D'.length ≤ n := by
      simp only [List.length_cons] at hN ⊢; omega
    have hout' : ∀ e ∈ D', ¬ (phys_to_ptr e.paddr ≤ x ∧
        x < phys_to_ptr e.paddr + e.count.toNat) := fun e he =>
      hout e (by simp [he])
    rcases lt_trichotomy (s.count - a) (d.count - b) with hcmp | hcmp | hcmp
    · rw [copy_loop_step_src _ _ _ _ _ _ _ _ _ hrempos hs' hd' hcmp]
      rw [ih S' (d :: D') _ 0 (b + min rem (s.count - a))
        (rem - min rem (s.count - a)) (c + min rem (s.count - a)) x hlen1
        le_rfl (by omega)
        (fun s2 t h2 => Or.inl rfl)
        (fun d2 t h2 => by injection h2 with h3 h4; subst h3; omega)
        hout]
      apply memcpy_frame
      rintro ⟨h1, h2⟩
      exact houtd ⟨by omega, by omega⟩
    · rw [copy_loop_step_both _ _ _ _ _ _ _ _ _ hrempos hs' hd' hcmp]
      rw [ih S' D' _ 0 0 (rem - min rem (s.count - a)) (c + min rem (s.count - a))
        x hlen3 le_rfl le_rfl
        (fun s2 t h2 => Or.inl rfl) (fun d2 t h2 => Or.inl rfl) hout']
      apply memcpy_frame
      rintro ⟨h1, h2⟩
      exact houtd ⟨by omega, by omega⟩
    · rw [copy_loop_step_dest _ _ _ _ _ _ _ _ _ hrempos hs' hd' hcmp]
      rw [ih (s :: S') D' _ (a + min rem (d.count - b)) 0
        (rem - min rem (d.count - b)) (c + min rem (d.count - b)) x hlen2
        (by omega) le_rfl
        (fun s2 t h2 => by injection h2 with h3 h4; subst h3; omega)
        (fun d2 t h2 => Or.inl rfl) hout']
      apply memcpy_frame
      rintro ⟨h1, h2⟩
      exact houtd ⟨by omega, by omega⟩

lemma sg_copy_frame (m : Mem) (src dest : List sg_entry) (k n : Int) (x : Nat)
    (hout : ∀ e ∈ dest, ¬ (phys_to_ptr e.paddr ≤ x ∧
      x < phys_to_ptr e.paddr + e.count.toNat)) :
    (sg_copy m src dest k n).2 x = m x := by
  by_cases hde : dest = []
  · subst hde; simp [sg_copy]
  by_cases hk : k < 0
  · rw [sg_copy, if_neg hde, if_pos hk]
  by_cases hn : n ≤ 0
  · rw [sg_copy, if_neg hde, if_neg hk, if_pos hn]
  obtain ⟨pre, suf, hsplit, heq, hle2, hhd⟩ := skip_loop_spec src 0 k (by omega)
  rw [sg_copy, if_neg hde, if_neg hk, if_neg hn, heq]
  cases suf with
  | nil => rfl
  | cons s t =>
    have hhd2 := hhd s t rfl
    exact copy_loop_frame ((s :: t).length + dest.length) (s :: t) dest m
      (k - (0 + sg_extent pre)) 0 n 0 x le_rfl (by omega) le_rfl
      (fun s2 t2 h2 => by injection h2 with h3 h4; subst h3; omega)
      (fun d2 t2 h2 => Or.inl rfl) hout
/-! ### `sg_map` loop lemmas -/

lemma map_first_loop_bounds :
    ∀ (fuel : Nat) (buf : Nat) (length : Int) (count : Nat),
      length.toNat - count ≤ fuel → (count : Int) ≤ length →
      count ≤ map_first_loop buf length count ∧
        (map_first_loop buf length count : Int) ≤ length
  | fuel, buf, length, count, hfuel, hle => by
    rw [map_first_loop.eq_def]
    split
    · rename_i hcond
      have hfuel' : length.toNat - (count + 1) ≤ fuel - 1 := by omega
      have hcount' : ((count + 1 : Nat) : Int) ≤ length := by
        push_cast
        omega
      have hlt : fuel - 1 < fuel := by omega
      have := map_first_loop_bounds (fuel - 1) buf length (count + 1) hfuel' hcount'
      omega
    · omega
termination_by fuel => fuel
decreasing_by omega

lemma map_first_loop_exit :
    ∀ (fuel : Nat) (buf : Nat) (length : Int) (count : Nat),
      length.toNat - count ≤ fuel → (count : Int) ≤ length →
      (buf + map_first_loop buf length count) % PAGE_SIZE = 0 ∨
        (map_first_loop buf length count : Int) = length
  | fuel, buf, length, count, hfuel, hle => by
    rw [map_first_loop.eq_def]
    split
    · rename_i hcond
      exact map_first_loop_exit (fuel - 1) buf length (count + 1)
        (by omega) (by push_cast; omega)
    · rename_i hcond
      rw [not_and_or, not_not, not_lt] at hcond
      rcases hcond with h | h
      · left
        rw [ptr_to_phys_mod] at h
        exact h
      · right
        omega
termination_by fuel => fuel
decreasing_by omega

lemma map_first_loop_mid :
    ∀ (fuel : Nat) (buf : Nat) (length : Int) (count : Nat),
      length.toNat - count ≤ fuel →
      ∀ i : Nat, count ≤ i → i < map_first_loop buf length count →
        (buf + i) % PAGE_SIZE ≠ 0
  | fuel, buf, length, count, hfuel, i, hci, hi => by
    revert hi
    rw [map_first_loop.eq_def]
    split
    · rename_i hcond
      intro hi
      by_cases hic : i = count
      · subst hic
        have := hcond.1
        rw [ptr_to_phys_mod] at this
        exact this
      · exact map_first_loop_mid (fuel - 1) buf length (count + 1)
          (by have := hcond.2; omega) i (by omega) hi
    · intro hi
      omega
termination_by fuel => fuel
decreasing_by omega

lemma map_loop_nonpos (buf : Nat) (rem tot : Int) (h : rem ≤ 0) :
    map_loop buf rem tot = [] := by
  rw [map_loop.eq_def, if_neg (by omega)]

lemma map_loop_extent :
    ∀ (fuel : Nat) (buf : Nat) (rem tot : Int), rem.toNat ≤ fuel →
      sg_extent (map_loop buf rem tot) = max rem 0
  | fuel, buf, rem, tot, hfuel => by
    rw [map_loop.eq_def]
    split
    · rename_i hrem
      have hcnt : (if rem ≤ (PAGE_SIZE : Int) then rem else (PAGE_SIZE : Int)) =
          min rem (PAGE_SIZE : Int) := by
        rw [min_def]
      simp only [sg_extent_cons, hcnt]
      rw [map_loop_extent (fuel - 1) buf (rem - min rem (PAGE_SIZE : Int))
        (tot + min rem (PAGE_SIZE : Int)) (by simp [PAGE_SIZE] at *; omega)]
      simp [PAGE_SIZE] at *
      omega
    · simp
      omega
termination_by fuel => fuel
decreasing_by omega

lemma map_loop_counts :
    ∀ (fuel : Nat) (buf : Nat) (rem tot : Int), rem.toNat ≤ fuel →
      ∀ e ∈ map_loop buf rem tot, 0 < e.count ∧ e.count ≤ (PAGE_SIZE : Int)
  | fuel, buf, rem, tot, hfuel, e, he => by
    revert he
    rw [map_loop.eq_def]
    split
    · rename_i hrem
      intro he
      rcases List.mem_cons.1 he with h | h
      · subst h
        simp only []
        constructor
        · split <;> simp [PAGE_SIZE] at * <;> omega
        · split <;> simp [PAGE_SIZE] at * <;> omega
      · refine map_loop_counts (fuel - 1) buf _ _ ?_ e h
        split at h <;> simp [PAGE_SIZE] at * <;> omega
    · intro he
      simp at he
termination_by fuel => fuel
decreasing_by omega

lemma map_loop_aligned :
    ∀ (fuel : Nat) (buf : Nat) (rem tot : Int), rem.toNat ≤ fuel →
      0 ≤ tot → (buf + tot.toNat) % PAGE_SIZE = 0 →
      ∀ e ∈ map_loop buf rem tot, e.paddr % PAGE_SIZE = 0
  | fuel, buf, rem, tot, hfuel, htot, halign, e, he => by
    revert he
    rw [map_loop.eq_def]
    split
    · rename_i hrem
      intro he
      rcases List.mem_cons.1 he with h | h
      · subst h
        simp only []
        rw [ptr_to_phys_mod]
        exact halign
      · by_cases hbig : rem ≤ (PAGE_SIZE : Int)
        · have : map_loop buf (rem - if rem ≤ (PAGE_SIZE : Int) then rem
              else (PAGE_SIZE : Int)) (tot + if rem ≤ (PAGE_SIZE : Int) then rem
              else (PAGE_SIZE : Int)) = [] := by
            apply map_loop_nonpos
            rw [if_pos hbig]
            omega
          rw [this] at h
          simp at h
        · rw [if_neg hbig] at h
          refine map_loop_aligned (fuel - 1) buf (rem - (PAGE_SIZE : Int))
            (tot + (PAGE_SIZE : Int)) (by simp [PAGE_SIZE] at *; omega)
            (by simp [PAGE_SIZE] at *; omega) ?_ e h
          have htn : (tot + (PAGE_SIZE : Int)).toNat = tot.toNat + PAGE_SIZE := by
            simp [PAGE_SIZE] at *
            omega
          rw [htn, ← Nat.add_assoc, Nat.add_mod_right]
          exact halign
    · intro he
      simp at he
termination_by fuel => fuel
decreasing_by omega
/-! ### Claim theorems -/

/-- C2: for every non-null buffer and every positive length, `sg_map`
returns a non-empty list whose descriptor counts sum exactly to `length`. -/
theorem sg_map_coverage (buf : Nat) (length : Int)
    (hbuf : buf ≠ 0) (hlen : 0 < length) :
    sg_map buf length ≠ [] ∧ sg_extent (sg_map buf length) = length := by
  rw [sg_map, if_neg hbuf, if_neg (by omega)]
  have hb := map_first_loop_bounds length.toNat buf length 0 (by omega) (by omega)
  set c0 := map_first_loop buf length 0 with hc0
  set c1 : Int := if c0 = 0 then
      (if length ≤ (PAGE_SIZE : Int) then length else (PAGE_SIZE : Int))
    else (c0 : Int) with hc1
  have hps : (PAGE_SIZE : Int) = 32 := rfl
  have hc1b : 0 < c1 ∧ c1 ≤ length := by
    rw [hc1]
    split
    · split <;> omega
    · rename_i h
      constructor <;> omega
  refine ⟨by simp, ?_⟩
  simp only [sg_extent_cons]
  rw [map_loop_extent (length - c1).toNat buf (length - c1) c1 le_rfl]
  omega

/-- C2 witness: `sg_map` at buffer 38, length 74. -/
theorem sg_map_coverage_witness :
    sg_map 38 74 ≠ [] ∧ sg_extent (sg_map 38 74) = 74 :=
  sg_map_coverage 38 74 (by decide) (by decide)

/-- C3: in every list `sg_map` builds from valid inputs, each descriptor
after the first starts at a page-aligned physical address, and every
descriptor's count is at most `PAGE_SIZE` with its byte range staying
inside a single page. -/
theorem sg_map_alignment (buf : Nat) (length : Int)
    (hbuf : buf ≠ 0) (hlen : 0 < length) :
    (∀ e ∈ (sg_map buf length).tail, e.paddr % PAGE_SIZE = 0) ∧
    (∀ e ∈ sg_map buf length, e.count ≤ (PAGE_SIZE : Int) ∧
      e.paddr % PAGE_SIZE + e.count.toNat ≤ PAGE_SIZE) := by
  rw [sg_map, if_neg hbuf, if_neg (by omega)]
  have hb := map_first_loop_bounds length.toNat buf length 0 (by omega) (by omega)
  have hexit := map_first_loop_exit length.toNat buf length 0 (by omega) (by omega)
  have hmid := map_first_loop_mid length.toNat buf length 0 (by omega)
  set c0 := map_first_loop buf length 0 with hc0
  set c1 : Int := if c0 = 0 then
      (if length ≤ (PAGE_SIZE : Int) then length else (PAGE_SIZE : Int))
    else (c0 : Int) with hc1
  have hps : (PAGE_SIZE : Int) = 32 := rfl
  have hpsn : PAGE_SIZE = 32 := rfl
  have hheadmod : ptr_to_phys buf % PAGE_SIZE = buf % PAGE_SIZE := ptr_to_phys_mod buf
  have hbuf0 : c0 = 0 → buf % PAGE_SIZE = 0 := by
    intro h0
    rcases hexit with h | h
    · simpa [h0] using h
    · rw [h0] at h
      omega
  have hcross : c0 ≠ 0 → buf % 32 + c0 ≤ 32 := by
    intro h0
    by_contra hgt
    push_neg at hgt
    have h0' : (buf + 0) % PAGE_SIZE ≠ 0 := hmid 0 (by omega) (by omega)
    rw [hpsn] at h0'
    simp only [Nat.add_zero] at h0'
    have hi0 : (buf + (32 - buf % 32)) % PAGE_SIZE ≠ 0 :=
      hmid (32 - buf % 32) (by omega) (by omega)
    rw [hpsn] at hi0
    have : (buf + (32 - buf % 32)) % 32 = 0 := by omega
    exact hi0 this
  have hc1b : 0 < c1 ∧ c1 ≤ (PAGE_SIZE : Int) := by
    rw [hc1]
    by_cases h0 : c0 = 0
    · rw [if_pos h0]
      split <;> omega
    · rw [if_neg h0]
      have := hcross h0
      have h1 : 0 < c0 := by omega
      constructor <;> omega
  -- the first descriptor stays inside one page
  have hhead : buf % PAGE_SIZE + c1.toNat ≤ PAGE_SIZE := by
    by_cases h0 : c0 = 0
    · have hb0 := hbuf0 h0
      rw [hc1, if_pos h0]
      rw [hpsn] at hb0 ⊢
      split <;> omega
    · have := hcross h0
      rw [hc1, if_neg h0, hpsn] at *
      omega
  -- alignment precondition for the tail loop
  have htail : ∀ e ∈ map_loop buf (length - c1) c1,
      e.paddr % PAGE_SIZE = 0 ∧ 0 < e.count ∧ e.count ≤ (PAGE_SIZE : Int) := by
    intro e he
    by_cases hrem : length - c1 ≤ 0
    · rw [map_loop_nonpos buf _ c1 hrem] at he
      simp at he
    · have hc1nn : 0 ≤ c1 := by omega
      have halign : (buf + c1.toNat) % PAGE_SIZE = 0 := by
        by_cases h0 : c0 = 0
        · have hb0 := hbuf0 h0
          have hc132 : c1 = 32 := by
            rw [hc1, if_pos h0, hps]
            by_cases hl32 : length ≤ 32
            · exfalso
              rw [hc1, if_pos h0, hps, if_pos hl32] at hrem
              omega
            · rw [if_neg hl32]
          rw [hc132, hpsn] at *
          omega
        · have hc1c0 : c1 = (c0 : Int) := by rw [hc1, if_neg h0]
          rcases hexit with h | h
          · rw [hc1c0]
            simpa using h
          · rw [hc1c0] at hrem
            omega
      have h1 := map_loop_aligned (length - c1).toNat buf (length - c1) c1
        le_rfl hc1nn halign e he
      have h2 := map_loop_counts (length - c1).toNat buf (length - c1) c1
        le_rfl e he
      exact ⟨h1, h2⟩
  constructor
  · intro e he
    simp only [List.tail_cons] at he
    exact (htail e he).1
  · intro e he
    rcases List.mem_cons.1 he with h | h
    · subst h
      simp only []
      rw [hheadmod]
      exact ⟨hc1b.2, hhead⟩
    · obtain ⟨ha, hc, hle⟩ := htail e h
      rw [ha]
      refine ⟨hle, ?_⟩
      rw [hpsn] at *
      omega

/-- C3 witness: the list mapped at buffer 38 with length 74. -/
theorem sg_map_alignment_witness :
    (∀ e ∈ (sg_map 38 74).tail, e.paddr % PAGE_SIZE = 0) ∧
    (∀ e ∈ sg_map 38 74, e.count ≤ (PAGE_SIZE : Int) ∧
      e.paddr % PAGE_SIZE + e.count.toNat ≤ PAGE_SIZE) :=
  sg_map_alignment 38 74 (by decide) (by decide)
/-- C1: on chains of positive-length descriptors with `src_offset ≥ 0` and
`count > 0` (source and destination describing disjoint memory, the
destination without internal aliasing), `sg_copy` writes into `dest`'s
logical extent, starting at destination offset 0, exactly bytes
`[src_offset, src_offset + count)` of `src`'s logical extent, clipped at
the shorter of the two extents: afterwards the destination's logical byte
sequence equals a naive flat copy of that byte range, regardless of how
the two chains' descriptor boundaries are arranged, and the returned
count is the clipped length. -/
theorem sg_copy_matches_flat_copy (m : Mem) (src dest : List sg_entry) (k n : Int)
    (hsp : ∀ e ∈ src, 0 < e.count) (hdp : ∀ e ∈ dest, 0 < e.count)
    (hk : 0 ≤ k) (hn : 0 < n)
    (hdisj : ∀ x ∈ sg_addrs src, x ∉ sg_addrs dest)
    (hnd : (sg_addrs dest).Nodup) :
    (sg_addrs dest).map (sg_copy m src dest k n).2 =
      flat_copy_bytes ((sg_addrs src).map m) ((sg_addrs dest).map m)
        k.toNat n.toNat
    ∧ (sg_copy m src dest k n).1 =
      min n (min (max (sg_extent src - k) 0) (sg_extent dest)) := by
  refine ⟨?_, sg_copy_fst m src dest k n hsp hdp hk hn⟩
  rw [sg_copy_snd m src dest k n hsp hdp hk hn hdisj]
  set R := min n (min (max (sg_extent src - k) 0) (sg_extent dest)) with hRdef
  have hsrclen : ((sg_addrs src).length : Int) = sg_extent src := length_sg_addrs hsp
  have hdestlen : ((sg_addrs dest).length : Int) = sg_extent dest := length_sg_addrs hdp
  have hdext : 0 ≤ sg_extent dest := sg_extent_nonneg hdp
  have hvslen : ((((sg_addrs src).drop k.toNat).take R.toNat).map m).length =
      ((sg_addrs dest).take R.toNat).length := by
    simp only [List.length_map, List.length_take, List.length_drop]
    omega
  rw [map_write_bytes_take _ R.toNat _ m hnd hvslen]
  rw [flat_copy_bytes]
  have hw : ((((sg_addrs src).map m).drop k.toNat).take n.toNat).take
        ((sg_addrs dest).map m).length =
      (((sg_addrs src).drop k.toNat).take R.toNat).map m := by
    rw [← List.map_drop, ← List.map_take, List.length_map, ← List.map_take,
      List.take_take]
    congr 1
    apply List.take_eq_take.mpr
    simp only [List.length_drop]
    omega
  rw [hw]
  congr 1
  simp only [List.length_map, List.length_take, List.length_drop]
  rw [← List.map_drop]
  congr 2
  omega

/-- C1 witness: the spec's mismatched-granularity example, source lengths
`[5, 20, 7]` against destination lengths `[10, 10, 12]` with `count = 32`. -/
theorem sg_copy_matches_flat_copy_witness :
    (sg_addrs c1dest).map (sg_copy c1mem c1src c1dest 0 32).2 =
      flat_copy_bytes ((sg_addrs c1src).map c1mem) ((sg_addrs c1dest).map c1mem)
        (0 : Int).toNat (32 : Int).toNat
    ∧ (sg_copy c1mem c1src c1dest 0 32).1 =
      min 32 (min (max (sg_extent c1src - 0) 0) (sg_extent c1dest)) :=
  sg_copy_matches_flat_copy c1mem c1src c1dest 0 32 (by decide) (by decide)
    (by decide) (by decide) (by decide) (by decide)
lemma skip_loop_all :
    ∀ (l : List sg_entry) (acc off : Int), (∀ e ∈ l, 0 < e.count) →
      acc + sg_extent l ≤ off → skip_loop l acc off = ([], acc + sg_extent l)
  | [], acc, off, _, _ => by simp [skip_loop]
  | e :: rest, acc, off, hpos, hle => by
    have hrest : 0 ≤ sg_extent rest := sg_extent_nonneg (fun x hx => hpos x (by simp [hx]))
    have hxc := sg_extent_cons e rest
    have hcond : acc + e.count ≤ off := by omega
    rw [skip_loop, if_pos hcond,
      skip_loop_all rest (acc + e.count) off (fun x hx => hpos x (by simp [hx]))
        (by omega),
      show acc + e.count + sg_extent rest = acc + sg_extent (e :: rest) from by omega]

lemma destroy_walk_zero (H : Nat → hnode) : ∀ f : Nat, destroy_walk H f 0 = 0
  | 0 => rfl
  | f + 1 => by
    rw [destroy_walk, show destroy_step H 0 = 0 from by rw [destroy_step, if_pos rfl]]
    exact destroy_walk_zero H f

/-- C4 counterexample: source extent 4, `src_offset = 0`, `count = 9`
(so `src_offset + count` exceeds the extent) but a one-byte destination:
the call returns 1, not `extent − src_offset = 4`. -/
theorem sg_copy_truncation_cex :
    (sg_copy (fun _ => 0) [⟨ptr_to_phys 1000, 4⟩] [⟨ptr_to_phys 2000, 1⟩] 0 9).1 = 1
    ∧ sg_extent [⟨ptr_to_phys 1000, 4⟩] - 0 = 4 := by
  constructor
  · rw [sg_copy_fst (fun _ => 0) [⟨ptr_to_phys 1000, 4⟩] [⟨ptr_to_phys 2000, 1⟩] 0 9
      (by decide) (by decide) (by decide) (by decide)]
    decide
  · decide

/-- C4 amended: when additionally both chains have positive-length
descriptors and the destination's capacity is at least `extent − src_offset`,
a call with `src_offset` inside the source extent and
`src_offset + count` beyond it returns exactly `extent − src_offset`,
which is strictly less than `count`. -/
theorem sg_copy_truncation_amended (m : Mem) (src dest : List sg_entry) (k n : Int)
    (hsp : ∀ e ∈ src, 0 < e.count) (hdp : ∀ e ∈ dest, 0 < e.count)
    (hk : 0 ≤ k) (hn : 0 < n)
    (hin : k < sg_extent src) (hover : sg_extent src < k + n)
    (hcap : sg_extent src - k ≤ sg_extent dest) :
    (sg_copy m src dest k n).1 = sg_extent src - k ∧
      (sg_copy m src dest k n).1 < n := by
  rw [sg_copy_fst m src dest k n hsp hdp hk hn]
  omega

/-- C4 amended witness: extent 4, offset 1, count 9, destination capacity 8. -/
theorem sg_copy_truncation_amended_witness :
    (sg_copy (fun _ => 0) [⟨ptr_to_phys 1000, 4⟩] [⟨ptr_to_phys 2000, 8⟩] 1 9).1 =
      sg_extent [⟨ptr_to_phys 1000, 4⟩] - 1
    ∧ (sg_copy (fun _ => 0) [⟨ptr_to_phys 1000, 4⟩] [⟨ptr_to_phys 2000, 8⟩] 1 9).1 < 9 :=
  sg_copy_truncation_amended (fun _ => 0) [⟨ptr_to_phys 1000, 4⟩]
    [⟨ptr_to_phys 2000, 8⟩] 1 9 (by decide) (by decide) (by decide) (by decide)
    (by decide) (by decide) (by decide)

/-- C5: an empty (NULL) `dest`, a negative `src_offset`, a non-positive
`count`, or a `src_offset` at or beyond the source's total extent (for a
source satisfying the positive-count invariant) makes `sg_copy` return 0
and leave memory — and in this embedding both descriptor chains — entirely
untouched: total rejection, never a partial copy. -/
theorem sg_copy_rejects_invalid (m : Mem) (src dest : List sg_entry) (k n : Int)
    (h : dest = [] ∨ k < 0 ∨ n ≤ 0 ∨
      ((∀ e ∈ src, 0 < e.count) ∧ sg_extent src ≤ k)) :
    sg_copy m src dest k n = (0, m) := by
  by_cases hde : dest = []
  · rw [sg_copy, if_pos hde]
  by_cases hk : k < 0
  · rw [sg_copy, if_neg hde, if_pos hk]
  by_cases hn : n ≤ 0
  · rw [sg_copy, if_neg hde, if_neg hk, if_pos hn]
  obtain ⟨hpos, hext⟩ : (∀ e ∈ src, 0 < e.count) ∧ sg_extent src ≤ k := by tauto
  rw [sg_copy, if_neg hde, if_neg hk, if_neg hn,
    skip_loop_all src 0 k hpos (by omega)]

/-- C5 witness: offset 5 at/beyond a source of extent 3. -/
theorem sg_copy_rejects_invalid_witness :
    sg_copy (fun _ => 0) [⟨ptr_to_phys 1000, 3⟩] [⟨ptr_to_phys 2000, 2⟩] 5 2 =
      (0, fun _ => 0) :=
  sg_copy_rejects_invalid (fun _ => 0) [⟨ptr_to_phys 1000, 3⟩]
    [⟨ptr_to_phys 2000, 2⟩] 5 2
    (Or.inr (Or.inr (Or.inr ⟨by decide, by decide⟩)))

/-- C6 counterexample: the offset-locating walk moves past a zero-length
descriptor — following its `next` link — and the copy then proceeds from
the following descriptor, returning 2 copied bytes where treating the
non-positive descriptor as a premature end of the chain would return 0. -/
theorem skip_walk_follows_nonpositive_cex :
    skip_loop [⟨ptr_to_phys 100, 0⟩, ⟨ptr_to_phys 200, 4⟩] 0 0 =
      ([⟨ptr_to_phys 200, 4⟩], 0)
    ∧ (sg_copy (fun _ => 0) [⟨ptr_to_phys 100, 0⟩, ⟨ptr_to_phys 200, 4⟩]
        [⟨ptr_to_phys 300, 4⟩] 0 2).1 = 2 := by
  constructor
  · decide
  · rw [sg_copy, if_neg (by decide), if_neg (by decide), if_neg (by decide),
      show skip_loop [⟨ptr_to_phys 100, 0⟩, ⟨ptr_to_phys 200, 4⟩] 0 0 =
        ([⟨ptr_to_phys 200, 4⟩], 0) from by decide]
    show (copy_loop (fun _ => 0) [⟨ptr_to_phys 200, 4⟩] [⟨ptr_to_phys 300, 4⟩]
      (0 - 0) 0 2 0).1 = 2
    rw [copy_loop_step_both _ _ _ _ _ _ _ _ _ (by decide) (by decide) (by decide)
      (by decide)]
    rw [copy_loop_nil_src]
    decide

/-- C6 amended: in the dual-cursor copy walk a descriptor with non-positive
length on either side ends the copy immediately with nothing consumed and
its `next` link never followed, and the destroyer severs at a non-positive
descriptor (freeing at most the current node and never following the bad
link); the initial offset-locating walk, however, treats a non-positive
count arithmetically and does follow that descriptor's `next` link. -/
theorem nonpositive_sentinel_amended (m : Mem) (s d e e2 : sg_entry)
    (S D rest : List sg_entry) (a b rem c : Int) (hrem : 0 < rem) :
    (s.count ≤ 0 → copy_loop m (s :: S) (d :: D) a b rem c = (c, m)) ∧
    (0 < s.count → d.count ≤ 0 → copy_loop m (s :: S) (d :: D) a b rem c = (c, m)) ∧
    (e.count ≤ 0 → sg_destroy (e :: rest) = [e]) ∧
    (e2.count ≤ 0 → sg_destroy (e :: e2 :: rest) = [e]) := by
  refine ⟨fun hs => copy_loop_src_stop m s S D d a b rem c hrem hs,
    fun hs hd => copy_loop_dest_stop m s S D d a b rem c hrem hs hd,
    fun he => by simp only [sg_destroy]; rw [if_pos he],
    fun he2 => ?_⟩
  by_cases he : e.count ≤ 0
  · simp only [sg_destroy]
    rw [if_pos he]
  · simp only [sg_destroy]
    rw [if_neg he]
    simp only [if_pos he2]

/-- C6 amended witness: concrete descriptors with non-positive counts. -/
theorem nonpositive_sentinel_amended_witness :
    ((⟨ptr_to_phys 100, -1⟩ : sg_entry).count ≤ 0 →
      copy_loop (fun _ => 0) [⟨ptr_to_phys 100, -1⟩, ⟨ptr_to_phys 200, 4⟩]
        [⟨ptr_to_phys 300, 4⟩] 0 0 3 0 = (0, fun _ => 0)) ∧
    (0 < (⟨ptr_to_phys 100, -1⟩ : sg_entry).count →
      (⟨ptr_to_phys 300, 4⟩ : sg_entry).count ≤ 0 →
      copy_loop (fun _ => 0) [⟨ptr_to_phys 100, -1⟩, ⟨ptr_to_phys 200, 4⟩]
        [⟨ptr_to_phys 300, 4⟩] 0 0 3 0 = (0, fun _ => 0)) ∧
    ((⟨ptr_to_phys 400, -2⟩ : sg_entry).count ≤ 0 →
      sg_destroy [⟨ptr_to_phys 400, -2⟩, ⟨ptr_to_phys 500, 1⟩] =
        [⟨ptr_to_phys 400, -2⟩]) ∧
    ((⟨ptr_to_phys 500, 0⟩ : sg_entry).count ≤ 0 →
      sg_destroy [⟨ptr_to_phys 400, -2⟩, ⟨ptr_to_phys 500, 0⟩,
          ⟨ptr_to_phys 500, 1⟩] =
        [⟨ptr_to_phys 400, -2⟩]) :=
  nonpositive_sentinel_amended (fun _ => 0) ⟨ptr_to_phys 100, -1⟩
    ⟨ptr_to_phys 300, 4⟩ ⟨ptr_to_phys 400, -2⟩ ⟨ptr_to_phys 500, 0⟩
    [⟨ptr_to_phys 200, 4⟩] [] [⟨ptr_to_phys 500, 1⟩] 0 0 3 0 (by decide)

/-- C7: `sg_copy` writes only inside the byte ranges described by the
destination chain: every address outside all destination descriptors'
ranges holds its original value afterwards (and, the chains being values
of this embedding, neither chain's descriptors — addresses, counts or
links — can be mutated, nor are new destination descriptors created). -/
theorem sg_copy_writes_only_dest (m : Mem) (src dest : List sg_entry)
    (k n : Int) (x : Nat)
    (hout : ∀ e ∈ dest, ¬ (phys_to_ptr e.paddr ≤ x ∧
      x < phys_to_ptr e.paddr + e.count.toNat)) :
    (sg_copy m src dest k n).2 x = m x :=
  sg_copy_frame m src dest k n x hout

/-- C7 witness: address 5000 lies outside the destination's ranges. -/
theorem sg_copy_writes_only_dest_witness :
    (sg_copy c1mem c1src c1dest 6 32).2 5000 = c1mem 5000 :=
  sg_copy_writes_only_dest c1mem c1src c1dest 6 32 5000 (by decide)

/-- C8: for chains satisfying the positive-count invariant and a positive
requested count, the value `sg_copy` returns is between 0 and `count` and
never exceeds the destination's total capacity. -/
theorem sg_copy_result_bounds (m : Mem) (src dest : List sg_entry) (k n : Int)
    (hsp : ∀ e ∈ src, 0 < e.count) (hdp : ∀ e ∈ dest, 0 < e.count)
    (hn : 0 < n) :
    0 ≤ (sg_copy m src dest k n).1 ∧ (sg_copy m src dest k n).1 ≤ n ∧
      (sg_copy m src dest k n).1 ≤ sg_extent dest := by
  have hdext : 0 ≤ sg_extent dest := sg_extent_nonneg hdp
  by_cases hk : 0 ≤ k
  · rw [sg_copy_fst m src dest k n hsp hdp hk hn]
    omega
  · by_cases hde : dest = []
    · rw [sg_copy, if_pos hde]
      simp only [Prod.fst]
      omega
    · rw [sg_copy, if_neg hde, if_pos (by omega : k < 0)]
      simp only [Prod.fst]
      omega

/-- C8 witness: requested 9000 bytes from offset 1. -/
theorem sg_copy_result_bounds_witness :
    0 ≤ (sg_copy c1mem c1src c1dest 1 9000).1 ∧
      (sg_copy c1mem c1src c1dest 1 9000).1 ≤ 9000 ∧
      (sg_copy c1mem c1src c1dest 1 9000).1 ≤ sg_extent c1dest :=
  sg_copy_result_bounds c1mem c1src c1dest 1 9000 (by decide) (by decide)
    (by decide)

/-- C9 counterexample: on a two-node cycle of positive-count descriptors
the destroy loop never drives its cursor to NULL — no amount of fuel
finishes the walk, so `sg_destroy` does not terminate there. -/
theorem sg_destroy_cycle_cex : ¬ destroy_halts cyc_heap 1 := by
  rintro ⟨fuel, hfuel⟩
  have key : ∀ f : Nat,
      (destroy_walk cyc_heap f 1 = 1 ∨ destroy_walk cyc_heap f 1 = 2) ∧
      (destroy_walk cyc_heap f 2 = 1 ∨ destroy_walk cyc_heap f 2 = 2) := by
    intro f
    induction f with
    | zero => exact ⟨Or.inl rfl, Or.inr rfl⟩
    | succ g ihg =>
      constructor
      · rw [destroy_walk, show destroy_step cyc_heap 1 = 2 from by decide]
        exact ihg.2
      · rw [destroy_walk, show destroy_step cyc_heap 2 = 1 from by decide]
        exact ihg.1
  rcases (key fuel).1 with h | h <;> omega

/-- C9 amended: the destroy loop terminates on every NULL-terminated chain
(within as many iterations as the chain has nodes; destroying an empty
list is a no-op, finishing in zero steps); its defensive severing check
targets non-positive counts, not cycles — a cycle of positive-count
descriptors makes the loop run forever. -/
theorem sg_destroy_terminates_acyclic (H : Nat → hnode) (p : Nat) (l : List Nat)
    (h : hchain H p l) : destroy_walk H l.length p = 0 := by
  induction h with
  | nil => rfl
  | @cons p l hp hch ihh =>
    rw [List.length_cons, destroy_walk]
    by_cases hsev : (H p).hcount ≤ 0 ∨ ((H p).hnext ≠ 0 ∧ (H (H p).hnext).hcount ≤ 0)
    · rw [show destroy_step H p = 0 from by
        simp only [destroy_step, if_neg hp]
        rw [if_pos hsev]]
      exact destroy_walk_zero H l.length
    · rw [show destroy_step H p = (H p).hnext from by
        simp only [destroy_step, if_neg hp]
        rw [if_neg hsev]]
      exact ihh

/-- C9 amended witness: a two-node NULL-terminated chain is destroyed in
two iterations. -/
theorem sg_destroy_terminates_acyclic_witness :
    destroy_walk line_heap 2 1 = 0 :=
  sg_destroy_terminates_acyclic line_heap 1 [1, 2]
    (hchain.cons (by decide) (hchain.cons (by decide) hchain.nil))

/-- C10: a NULL (empty) source list makes `sg_copy` return 0 with no byte
transferred and memory untouched, for every destination, offset and
count: the locating walk immediately finds the chain exhausted. -/
theorem sg_copy_null_src (m : Mem) (dest : List sg_entry) (k n : Int) :
    sg_copy m [] dest k n = (0, m) := by
  by_cases hde : dest = []
  · rw [sg_copy, if_pos hde]
  by_cases hk : k < 0
  · rw [sg_copy, if_neg hde, if_pos hk]
  by_cases hn : n ≤ 0
  · rw [sg_copy, if_neg hde, if_neg hk, if_pos hn]
  rw [sg_copy, if_neg hde, if_neg hk, if_neg hn]
  rfl
